import Mathlib

/-!
Verification of the stratified splitting engine of `da_datasets`
(`src/da_datasets/utils.py` and `src/da_datasets/datasets.py`).

The Python code is shallowly embedded as executable Lean functions:

* numpy / Python primitives (slicing with Python's negative-index
  semantics, indexing that raises `IndexError`, `np.concatenate` that
  raises `ValueError` on an empty list, `int()` truncation on rationals,
  `np.unique` as sorted deduplication) are modelled first;
* `np.random.shuffle` is modelled by an explicit parameter
  `sh : ℕ → List ℕ → List ℕ` giving the permutation used by the k-th
  shuffle call of the function (call sites are numbered in execution
  order); theorems assume only that every `sh k` permutes its input;
* fallible code returns `Except String α`, with the error string naming
  the Python exception class;
* floats in `sizes` are modelled as rationals, so `int(size_total*size)`
  becomes truncation of an exact rational product;
* for the frame claim (no mutation of the caller's `labels`), a second,
  store-passing embedding makes numpy's copy/view behaviour explicit:
  `np.array(labels)` allocates a fresh array, boolean-mask indexing
  allocates a fresh array, and `np.random.shuffle` writes in place to
  the array it is given.
-/

/-- Python slice endpoint normalisation for a sequence of length `n`:
a negative endpoint counts from the end (clamped at 0), a nonnegative
one is clamped at `n`. -/
def sliceIdx (n : ℕ) (i : ℤ) : ℕ :=
  if i < 0 then ((n : ℤ) + i).toNat else min i.toNat n

/-- Python slice `l[i:j]` (with Python's negative-endpoint semantics). -/
def pySlice {α : Type} (l : List α) (i j : ℤ) : List α :=
  (l.drop (sliceIdx l.length i)).take (sliceIdx l.length j - sliceIdx l.length i)

/-- Python / numpy integer indexing `l[i]`: a negative index counts from
the end; an index out of range raises `IndexError`. -/
def pyGet {α : Type} (l : List α) (i : ℤ) : Except String α :=
  let j : ℤ := if i < 0 then i + l.length else i
  if j < 0 then .error "IndexError"
  else
    match l.get? j.toNat with
    | some a => .ok a
    | none => .error "IndexError"

/-- Model of `np.concatenate` on a Python list of arrays: raises `ValueError`
when the list is empty, otherwise concatenates. -/
def npConcat {α : Type} (ls : List (List α)) : Except String (List α) :=
  match ls with
  | [] => .error "ValueError"
  | _ => .ok ls.flatten

/-- Python `int(q)` on a rational: truncation toward zero. -/
def pyTrunc (q : ℚ) : ℤ :=
  if q < 0 then ⌈q⌉ else ⌊q⌋

/-- Model of `np.unique(labels)`: the distinct label values in ascending order. -/
def uniqueSorted (l : List ℤ) : List ℤ :=
  List.insertionSort (· ≤ ·) l.dedup

/-- Model of `index_all[labels == val]`: the positions of `labels` holding `val`,
in ascending order (`index_all = np.arange(len(labels))`). -/
def classIdx (labels : List ℤ) (v : ℤ) : List ℕ :=
  (List.range labels.length).filter (fun i => labels.getD i 0 == v)

/-- The per-class body of `get_n_shot`'s loop (utils.py lines 137-141),
iterated over the remaining class values with the shuffle-call counter:
class positions are collected, shuffled, and split into the first-`n`
slice `index[:n]` and the rest `index[n:]`. -/
def shotChunks (sh : ℕ → List ℕ → List ℕ) (labels : List ℤ) (n : ℤ) :
    List ℤ → ℕ → List (List ℕ × List ℕ)
  | [], _ => []
  | v :: vs, i =>
    let idx := sh i (classIdx labels v)
    (pySlice idx 0 n, pySlice idx n idx.length) :: shotChunks sh labels n vs (i + 1)

/-- Model of `get_n_shot(labels, n)` (utils.py lines 116-145): per class, shuffle
the class positions and put the first `n` in `index_1`, the rest in
`index_2`; finally `np.concatenate` both chunk lists (which raises
`ValueError` when `labels` is empty). -/
def get_n_shot (sh : ℕ → List ℕ → List ℕ) (labels : List ℤ) (n : ℤ) :
    Except String (List ℕ × List ℕ) :=
  let chunks := shotChunks sh labels n (uniqueSorted labels) 0
  match npConcat (chunks.map Prod.fst), npConcat (chunks.map Prod.snd) with
  | .ok i1, .ok i2 => .ok (i1, i2)
  | .error e, _ => .error e
  | _, .error e => .error e

/-- The seeding inner loop of `get_n_split` (utils.py lines 178-179):
`for return_index in range(m): indices[return_index].append(index[return_index])`,
reading `idx[j], idx[j+1], ...`; numpy raises `IndexError` as soon as
the position is out of range. -/
def seedTake {α : Type} (idx : List α) : ℕ → ℕ → Except String (List α)
  | _, 0 => .ok []
  | j, m + 1 =>
    match idx.get? j with
    | none => .error "IndexError"
    | some x =>
      match seedTake idx (j + 1) m with
      | .error e => .error e
      | .ok rest => .ok (x :: rest)

/-- The per-class seeding loop of `get_n_split` (utils.py lines 172-181),
over the remaining class values with the shuffle-call counter: per class,
shuffle the class positions, give one position to each of the `k` output
groups (`seedTake`), and keep `index[k:]` as the class's leftover. The
first component collects each class's `k` seeds, the second its
leftovers. -/
def seedAll (sh : ℕ → List ℕ → List ℕ) (labels : List ℤ) (k : ℕ) :
    List ℤ → ℕ → Except String (List (List ℕ) × List (List ℕ))
  | [], _ => .ok ([], [])
  | v :: vs, i =>
    let idx := sh i (classIdx labels v)
    match seedTake idx 0 k with
    | .error e => .error e
    | .ok s =>
      match seedAll sh labels k vs (i + 1) with
      | .error e => .error e
      | .ok p => .ok (s :: p.1, pySlice idx (k : ℤ) idx.length :: p.2)

/-- Target sizes of `get_n_split` (utils.py lines 166-167):
`[int(size_total*size) for size in sizes]` followed by the remainder
`size_total - sum(...)` for the last group. -/
def targetSizes (N : ℕ) (sizes : List ℚ) : List ℤ :=
  let ts := sizes.map (fun s => pyTrunc ((N : ℚ) * s))
  ts ++ [(N : ℤ) - ts.sum]

/-- The leftover fill loop of `get_n_split` (utils.py lines 187-194):
each group `i` in order is extended with `leftover[start:start+t]` where
`t = target_sizes[i] - len(indices[i])` and `len(indices[i]) = C` is the
number of classes (each group holds exactly one seed per class at that
point); the cursor then advances by `t` — which, as in the Python code,
may be negative. -/
def fillChunks {α : Type} (lo : List α) (C : ℕ) : List ℤ → ℤ → List (List α)
  | [], _ => []
  | t :: ts, start =>
    pySlice lo start (start + (t - C)) :: fillChunks lo C ts (start + (t - C))

/-- The seeded part of output group `j` of `get_n_split`: each class
contributed its `j`-th seed, in class order (the transpose of the
per-class seed lists). -/
def seedCols {α : Type} (d : α) (ss : List (List α)) (k : ℕ) : List (List α) :=
  (List.range k).map (fun j => ss.map (fun s => s.getD j d))

/-- Model of `get_n_split(labels, sizes)` (utils.py lines 148-198): seed every
group with one shuffled position per class (raising `IndexError` when a
class has fewer than `k = len(sizes)+1` members), `np.concatenate` the
leftovers (raising `ValueError` when `labels` is empty), shuffle the
pool, and fill every group up to its target size from the pool. -/
def get_n_split (sh : ℕ → List ℕ → List ℕ) (labels : List ℤ) (sizes : List ℚ) :
    Except String (List (List ℕ)) :=
  let k := sizes.length + 1
  match seedAll sh labels k (uniqueSorted labels) 0 with
  | .error e => .error e
  | .ok p =>
    match npConcat p.2 with
    | .error e => .error e
    | .ok leftover =>
      let lo := sh (uniqueSorted labels).length leftover
      .ok (List.zipWith (fun a b => a ++ b) (seedCols 0 p.1 k)
            (fillChunks lo p.1.length (targetSizes labels.length sizes) 0))

/-! ### Lemmas about the Python / numpy primitives -/

lemma sliceIdx_le (n : ℕ) (i : ℤ) : sliceIdx n i ≤ n := by
  unfold sliceIdx
  split
  · omega
  · exact min_le_right _ _

lemma sliceIdx_zero (n : ℕ) : sliceIdx n 0 = 0 := by
  unfold sliceIdx
  simp

lemma sliceIdx_length (n : ℕ) : sliceIdx n (n : ℤ) = n := by
  unfold sliceIdx
  simp

lemma sliceIdx_of_nonneg {i : ℤ} (h : 0 ≤ i) (n : ℕ) : sliceIdx n i = min i.toNat n := by
  unfold sliceIdx
  rw [if_neg (by omega)]

lemma pySlice_zero {α : Type} (l : List α) (j : ℤ) :
    pySlice l 0 j = l.take (sliceIdx l.length j) := by
  unfold pySlice
  rw [sliceIdx_zero]
  simp

lemma pySlice_to_length {α : Type} (l : List α) (i : ℤ) :
    pySlice l i (l.length : ℤ) = l.drop (sliceIdx l.length i) := by
  unfold pySlice
  rw [sliceIdx_length]
  exact List.take_of_length_le (List.length_drop _ _).le

lemma pySlice_split {α : Type} (l : List α) (j : ℤ) :
    pySlice l 0 j ++ pySlice l j (l.length : ℤ) = l := by
  rw [pySlice_zero, pySlice_to_length]
  exact List.take_append_drop _ l

lemma pySlice_zero_length {α : Type} (l : List α) {n : ℤ} (hn : 0 ≤ n) :
    (pySlice l 0 n).length = min n.toNat l.length := by
  rw [pySlice_zero, List.length_take, sliceIdx_of_nonneg hn]
  omega

lemma pySlice_natCast_drop {α : Type} (l : List α) (k : ℕ) :
    pySlice l (k : ℤ) (l.length : ℤ) = l.drop k := by
  rw [pySlice_to_length, sliceIdx_of_nonneg (by omega)]
  rcases le_total k l.length with h | h
  · congr 1
    omega
  · have h1 : min (k : ℤ).toNat l.length = l.length := by omega
    rw [h1, List.drop_length]
    exact (List.drop_eq_nil_of_le h).symm

lemma pySlice_nonneg_spec {α : Type} (l : List α) (i j : ℤ) (h0 : 0 ≤ i) (hij : i ≤ j)
    (hj : j ≤ (l.length : ℤ)) :
    pySlice l i j = (l.drop i.toNat).take (j - i).toNat := by
  unfold pySlice
  rw [sliceIdx_of_nonneg h0, sliceIdx_of_nonneg (le_trans h0 hij)]
  have h1 : min i.toNat l.length = i.toNat := by omega
  have h2 : min j.toNat l.length = j.toNat := by omega
  rw [h1, h2]
  congr 1
  omega

lemma npConcat_cons {α : Type} (x : List α) (xs : List (List α)) :
    npConcat (x :: xs) = .ok (x :: xs).flatten := rfl

lemma getD_mem_of_lt {α : Type} (l : List α) (n : ℕ) (d : α) (h : n < l.length) :
    l.getD n d ∈ l := by
  rw [List.getD_eq_getElem l d h]
  exact List.getElem_mem h

/-! ### Lemmas about uniqueSorted and classIdx -/

lemma uniqueSorted_perm_dedup (l : List ℤ) : List.Perm (uniqueSorted l) l.dedup :=
  List.perm_insertionSort _ _

lemma mem_uniqueSorted {l : List ℤ} {v : ℤ} : v ∈ uniqueSorted l ↔ v ∈ l :=
  (uniqueSorted_perm_dedup l).mem_iff.trans List.mem_dedup

lemma nodup_uniqueSorted (l : List ℤ) : (uniqueSorted l).Nodup :=
  (uniqueSorted_perm_dedup l).nodup_iff.mpr l.nodup_dedup

lemma uniqueSorted_ne_nil {l : List ℤ} (h : l ≠ []) : uniqueSorted l ≠ [] := by
  rcases List.exists_mem_of_ne_nil l h with ⟨a, ha⟩
  intro hu
  exact absurd (mem_uniqueSorted.mpr ha) (by simp [hu])

lemma mem_classIdx {labels : List ℤ} {v : ℤ} {i : ℕ} :
    i ∈ classIdx labels v ↔ i < labels.length ∧ labels.getD i 0 = v := by
  unfold classIdx
  simp [List.mem_filter, List.mem_range]

lemma length_classIdx (labels : List ℤ) (v : ℤ) :
    (classIdx labels v).length = labels.count v := by
  unfold classIdx
  induction labels with
  | nil => rfl
  | cons a l ih =>
    rw [List.length_cons, List.range_succ_eq_map, List.filter_cons]
    have hmap : ((List.range l.length).map Nat.succ).filter
        (fun i => (a :: l).getD i 0 == v)
        = ((List.range l.length).filter (fun i => l.getD i 0 == v)).map Nat.succ := by
      rw [List.filter_map]
      congr 1
    rw [List.count_cons]
    by_cases hav : a = v
    · rw [if_pos (show ((a :: l).getD 0 0 == v) = true from beq_iff_eq.mpr hav)]
      rw [if_pos (beq_iff_eq.mpr hav)]
      rw [List.length_cons, hmap, List.length_map, ih]
    · rw [if_neg (show ¬ ((a :: l).getD 0 0 == v) = true from
        fun h => hav (beq_iff_eq.mp h))]
      rw [if_neg (show ¬ ((a == v) = true) from fun h => hav (beq_iff_eq.mp h))]
      rw [hmap, List.length_map, ih]
      omega

lemma filter_classes_perm (lab : List ℤ) :
    ∀ (vs : List ℤ) (pool : List ℕ), vs.Nodup →
      (∀ i ∈ pool, lab.getD i 0 ∈ vs) →
      List.Perm ((vs.map (fun v => pool.filter (fun i => lab.getD i 0 == v))).flatten) pool
  | [], pool, _, hcov => by
    have hpool : pool = [] := by
      cases pool with
      | nil => rfl
      | cons a t => exact absurd (hcov a (by simp)) (by simp)
    simp [hpool]
  | v :: vs, pool, hnd, hcov => by
    have hvnotin : v ∉ vs := (List.nodup_cons.mp hnd).1
    have hvs : vs.Nodup := (List.nodup_cons.mp hnd).2
    have hmap : vs.map (fun w => pool.filter (fun i => lab.getD i 0 == w))
        = vs.map (fun w => (pool.filter (fun i => !(lab.getD i 0 == v))).filter
            (fun i => lab.getD i 0 == w)) := by
      apply List.map_congr_left
      intro w hw
      rw [List.filter_filter]
      apply List.filter_congr
      intro i _
      by_cases h : lab.getD i 0 = w
      · have hne : lab.getD i 0 ≠ v := by
          intro hv
          exact hvnotin ((h.symm.trans hv) ▸ hw)
        rw [beq_iff_eq.mpr h, beq_eq_false_iff_ne.mpr hne]
        rfl
      · rw [beq_eq_false_iff_ne.mpr h]
        rfl
    have ih := filter_classes_perm lab vs (pool.filter (fun i => !(lab.getD i 0 == v))) hvs
      (by
        intro i hi
        rcases List.mem_filter.mp hi with ⟨hip, hnv⟩
        rcases hcov i hip with hmem
        rcases List.mem_cons.mp hmem with h | h
        · exact absurd (beq_iff_eq.mpr h) (by simpa using hnv)
        · exact h)
    rw [List.map_cons, List.flatten_cons, hmap]
    exact ((ih.append_left _).trans (List.filter_append_perm _ pool))

lemma classIdx_cover (labels : List ℤ) :
    List.Perm (((uniqueSorted labels).map (classIdx labels)).flatten)
      (List.range labels.length) := by
  have h := filter_classes_perm labels (uniqueSorted labels) (List.range labels.length)
    (nodup_uniqueSorted labels)
    (by
      intro i hi
      rw [List.mem_range] at hi
      exact mem_uniqueSorted.mpr (getD_mem_of_lt labels i 0 hi))
  exact h

/-! ### Permutation utilities for interleaved flattens -/

lemma perm_middle_swap {α : Type} (b c e : List α) :
    List.Perm (b ++ (c ++ e)) (c ++ (b ++ e)) := by
  rw [← List.append_assoc, ← List.append_assoc]
  exact List.perm_append_comm.append_right e

lemma append_swap_perm {α : Type} (a b c d : List α) :
    List.Perm ((a ++ b) ++ (c ++ d)) ((a ++ c) ++ (b ++ d)) := by
  rw [List.append_assoc, List.append_assoc]
  exact (perm_middle_swap b c d).append_left a

lemma flatten_zipWith_append_perm {α : Type} :
    ∀ (as bs : List (List α)), as.length = bs.length →
      List.Perm (List.zipWith (fun x y => x ++ y) as bs).flatten
        (as.flatten ++ bs.flatten)
  | [], [], _ => by simp
  | [], _ :: _, h => by simp at h
  | _ :: _, [], h => by simp at h
  | a :: as, b :: bs, h => by
    have ih := flatten_zipWith_append_perm as bs (by simpa using h)
    rw [List.zipWith_cons_cons, List.flatten_cons, List.flatten_cons, List.flatten_cons]
    exact (ih.append_left (a ++ b)).trans (append_swap_perm a b as.flatten bs.flatten)

lemma flatten_map_cons_perm {α γ : Type} (f : γ → α) (g : γ → List α) :
    ∀ (l : List γ),
      List.Perm ((l.map (fun j => f j :: g j)).flatten) (l.map f ++ (l.map g).flatten)
  | [] => by simp
  | j :: t => by
    have ih := flatten_map_cons_perm f g t
    rw [List.map_cons, List.flatten_cons, List.map_cons, List.map_cons, List.flatten_cons,
      List.cons_append, List.cons_append]
    refine List.Perm.cons (f j) ?_
    exact (ih.append_left (g j)).trans (perm_middle_swap (g j) (t.map f) ((t.map g).flatten))

lemma map_getD_range {α : Type} (d : α) :
    ∀ (l : List α), (List.range l.length).map (fun j => l.getD j d) = l
  | [] => by simp
  | a :: l => by
    rw [List.length_cons, List.range_succ_eq_map, List.map_cons, List.map_map]
    have hc : ((fun j => (a :: l).getD j d) ∘ Nat.succ) = (fun j => l.getD j d) := by
      funext j
      simp [Function.comp, List.getD_cons_succ]
    rw [hc, map_getD_range d l]
    simp [List.getD_cons_zero]

lemma seedCols_flatten_perm {α : Type} (d : α) (k : ℕ) :
    ∀ (ss : List (List α)), (∀ s ∈ ss, s.length = k) →
      List.Perm ((seedCols d ss k).flatten) ss.flatten
  | [], _ => by
    simp [seedCols, List.flatten_eq_nil_iff]
  | s :: ss, h => by
    have hs : s.length = k := h s (by simp)
    have ih := seedCols_flatten_perm d k ss (fun t ht => h t (by simp [ht]))
    unfold seedCols at ih ⊢
    have h1 : (List.range k).map (fun j => (s :: ss).map (fun t => t.getD j d))
        = (List.range k).map (fun j => (s.getD j d) :: ss.map (fun t => t.getD j d)) := by
      simp [List.map_cons]
    rw [h1, List.flatten_cons]
    refine (flatten_map_cons_perm (fun j => s.getD j d)
      (fun j => ss.map (fun t => t.getD j d)) (List.range k)).trans ?_
    have h2 : (List.range k).map (fun j => s.getD j d) = s := by
      rw [← hs]
      exact map_getD_range d s
    rw [h2]
    exact ih.append_left s

/-! ### Structure of get_n_shot results -/

lemma get_n_shot_eq_ok {sh : ℕ → List ℕ → List ℕ} {labels : List ℤ} {n : ℤ}
    (hne : labels ≠ []) :
    get_n_shot sh labels n =
      .ok (((shotChunks sh labels n (uniqueSorted labels) 0).map Prod.fst).flatten,
           ((shotChunks sh labels n (uniqueSorted labels) 0).map Prod.snd).flatten) := by
  unfold get_n_shot
  cases hu : uniqueSorted labels with
  | nil => exact absurd hu (uniqueSorted_ne_nil hne)
  | cons v vs =>
    simp only [shotChunks, List.map_cons, npConcat_cons]

lemma shotChunks_flatten_perm (sh : ℕ → List ℕ → List ℕ) (labels : List ℤ) (n : ℤ)
    (Hsh : ∀ a l, List.Perm (sh a l) l) :
    ∀ (vs : List ℤ) (i : ℕ),
      List.Perm (((shotChunks sh labels n vs i).map Prod.fst).flatten ++
                 ((shotChunks sh labels n vs i).map Prod.snd).flatten)
                ((vs.map (classIdx labels)).flatten)
  | [], _ => by simp [shotChunks]
  | v :: vs, i => by
    have ih := shotChunks_flatten_perm sh labels n Hsh vs (i + 1)
    simp only [shotChunks, List.map_cons, List.flatten_cons]
    refine (append_swap_perm _ _ _ _).trans ?_
    rw [pySlice_split]
    exact (Hsh i (classIdx labels v)).append ih

/-- C3: for every non-empty labels sequence and every n ≥ 0 (and any
permutation-valued shuffle), get_n_shot succeeds and the two returned
index arrays are disjoint, and their union, as a set, is exactly
the full index range 0..len(labels)-1. -/
theorem get_n_shot_partition (sh : ℕ → List ℕ → List ℕ) (labels : List ℤ) (n : ℤ)
    (Hsh : ∀ a l, List.Perm (sh a l) l) (hne : labels ≠ []) (_hn : 0 ≤ n) :
    ∃ i1 i2, get_n_shot sh labels n = .ok (i1, i2) ∧
      i1.Disjoint i2 ∧ ∀ j, (j ∈ i1 ∨ j ∈ i2) ↔ j < labels.length := by
  refine ⟨_, _, get_n_shot_eq_ok hne, ?_, ?_⟩
  · have hcov := (shotChunks_flatten_perm sh labels n Hsh (uniqueSorted labels) 0).trans
      (classIdx_cover labels)
    have hnd : (((shotChunks sh labels n (uniqueSorted labels) 0).map Prod.fst).flatten ++
        ((shotChunks sh labels n (uniqueSorted labels) 0).map Prod.snd).flatten).Nodup :=
      hcov.nodup_iff.mpr (List.nodup_range _)
    exact (List.nodup_append.mp hnd).2.2
  · intro j
    have hcov := (shotChunks_flatten_perm sh labels n Hsh (uniqueSorted labels) 0).trans
      (classIdx_cover labels)
    rw [← List.mem_append, hcov.mem_iff, List.mem_range]

/-- Witness for C3 at a concrete input. -/
theorem get_n_shot_partition_witness :
    ([0, 0, 0, 1, 1, 1] : List ℤ) ≠ [] ∧ (0 : ℤ) ≤ 1 ∧
    (∃ i1 i2, get_n_shot (fun _ l => l) [0, 0, 0, 1, 1, 1] 1 = .ok (i1, i2) ∧
      i1.Disjoint i2 ∧ ∀ j, (j ∈ i1 ∨ j ∈ i2) ↔ j < ([0, 0, 0, 1, 1, 1] : List ℤ).length) :=
  ⟨by decide, by decide,
    get_n_shot_partition (fun _ l => l) [0, 0, 0, 1, 1, 1] 1
      (fun _ l => List.Perm.refl l) (by decide) (by decide)⟩

lemma shotChunks_fst_filter (sh : ℕ → List ℕ → List ℕ) (labels : List ℤ) (n : ℤ) (c : ℤ)
    (Hsh : ∀ a l, List.Perm (sh a l) l) (hn : 0 ≤ n) :
    ∀ (vs : List ℤ) (i : ℕ), vs.Nodup →
      ((((shotChunks sh labels n vs i).map Prod.fst).flatten).filter
        (fun x => labels.getD x 0 == c)).length
      = if c ∈ vs then min n.toNat (labels.count c) else 0
  | [], _, _ => by simp [shotChunks]
  | v :: vs, i, hnd => by
    have hvnotin : v ∉ vs := (List.nodup_cons.mp hnd).1
    have ih := shotChunks_fst_filter sh labels n c Hsh hn vs (i + 1)
      (List.nodup_cons.mp hnd).2
    simp only [shotChunks, List.map_cons, List.flatten_cons, List.filter_append,
      List.length_append]
    rw [ih]
    have hidx : List.Perm (sh i (classIdx labels v)) (classIdx labels v) := Hsh i _
    have hmem : ∀ x ∈ pySlice (sh i (classIdx labels v)) 0 n, labels.getD x 0 = v := by
      intro x hx
      have hx2 : x ∈ sh i (classIdx labels v) := by
        rw [pySlice_zero] at hx
        exact (List.take_sublist _ _).subset hx
      exact (mem_classIdx.mp (hidx.mem_iff.mp hx2)).2
    have hlen : (sh i (classIdx labels v)).length = labels.count v :=
      hidx.length_eq.trans (length_classIdx labels v)
    by_cases hvc : v = c
    · subst hvc
      rw [if_pos (List.mem_cons_self v vs), if_neg hvnotin]
      have hfilt : (pySlice (sh i (classIdx labels v)) 0 n).filter
          (fun x => labels.getD x 0 == v) = pySlice (sh i (classIdx labels v)) 0 n :=
        List.filter_eq_self.mpr (fun a ha => beq_iff_eq.mpr (hmem a ha))
      rw [hfilt, pySlice_zero_length _ hn, hlen]
      omega
    · have hfilt : (pySlice (sh i (classIdx labels v)) 0 n).filter
          (fun x => labels.getD x 0 == c) = [] := by
        rw [List.filter_eq_nil_iff]
        intro a ha h
        exact hvc ((hmem a ha).symm.trans (beq_iff_eq.mp h))
      rw [hfilt]
      by_cases hc2 : c ∈ vs
      · rw [if_pos hc2, if_pos (List.mem_cons_of_mem v hc2)]
        simp
      · rw [if_neg hc2, if_neg (by
          intro hmem2
          rcases List.mem_cons.mp hmem2 with h | h
          · exact hvc h.symm
          · exact hc2 h)]
        simp

/-- C4: for every non-empty labels, n ≥ 0 and class value c present in
labels, the number of positions of index_1 whose label is c equals
min(n, count of c in labels); the corresponding count in index_2 is the
remainder — in particular a class with fewer than n members sends all
its members to index_1 and none to index_2. -/
theorem get_n_shot_shot_cap (sh : ℕ → List ℕ → List ℕ) (labels : List ℤ) (n : ℤ) (c : ℤ)
    (Hsh : ∀ a l, List.Perm (sh a l) l) (hne : labels ≠ []) (hn : 0 ≤ n) (hc : c ∈ labels) :
    ∃ i1 i2, get_n_shot sh labels n = .ok (i1, i2) ∧
      (i1.filter (fun x => labels.getD x 0 == c)).length = min n.toNat (labels.count c) ∧
      (i2.filter (fun x => labels.getD x 0 == c)).length
        = labels.count c - min n.toNat (labels.count c) := by
  have h1 := shotChunks_fst_filter sh labels n c Hsh hn (uniqueSorted labels) 0
    (nodup_uniqueSorted labels)
  rw [if_pos (mem_uniqueSorted.mpr hc)] at h1
  refine ⟨_, _, get_n_shot_eq_ok hne, h1, ?_⟩
  have hperm := ((shotChunks_flatten_perm sh labels n Hsh (uniqueSorted labels) 0).trans
    (classIdx_cover labels)).filter (fun x => labels.getD x 0 == c)
  have hlen := hperm.length_eq
  rw [List.filter_append, List.length_append] at hlen
  have hcount : ((List.range labels.length).filter (fun x => labels.getD x 0 == c)).length
      = labels.count c := length_classIdx labels c
  rw [hcount] at hlen
  omega

/-- Witness for C4 at a concrete input. -/
theorem get_n_shot_shot_cap_witness :
    ([0, 0, 0, 1, 1, 1] : List ℤ) ≠ [] ∧ (0 : ℤ) ≤ 1 ∧ (0 : ℤ) ∈ ([0, 0, 0, 1, 1, 1] : List ℤ) ∧
    (∃ i1 i2, get_n_shot (fun _ l => l) [0, 0, 0, 1, 1, 1] 1 = .ok (i1, i2) ∧
      (i1.filter (fun x => ([0, 0, 0, 1, 1, 1] : List ℤ).getD x 0 == 0)).length
        = min (1 : ℤ).toNat (([0, 0, 0, 1, 1, 1] : List ℤ).count 0) ∧
      (i2.filter (fun x => ([0, 0, 0, 1, 1, 1] : List ℤ).getD x 0 == 0)).length
        = ([0, 0, 0, 1, 1, 1] : List ℤ).count 0
          - min (1 : ℤ).toNat (([0, 0, 0, 1, 1, 1] : List ℤ).count 0)) :=
  ⟨by decide, by decide, by decide,
    get_n_shot_shot_cap (fun _ l => l) [0, 0, 0, 1, 1, 1] 1 0
      (fun _ l => List.Perm.refl l) (by decide) (by decide) (by decide)⟩

/-! ### Lemmas about the seeding and fill phases of get_n_split -/

lemma pySlice_nonneg_length {α : Type} (l : List α) (i j : ℤ) (h0 : 0 ≤ i) (hij : i ≤ j)
    (hj : j ≤ (l.length : ℤ)) : ((pySlice l i j).length : ℤ) = j - i := by
  rw [pySlice_nonneg_spec l i j h0 hij hj, List.length_take, List.length_drop]
  omega

lemma seedTake_ok {α : Type} (idx : List α) :
    ∀ (m j : ℕ), j + m ≤ idx.length → seedTake idx j m = .ok ((idx.drop j).take m)
  | 0, j, _ => by simp [seedTake]
  | m + 1, j, h => by
    have hj : j < idx.length := by omega
    simp only [seedTake]
    rw [List.get?_eq_getElem?, List.getElem?_eq_getElem hj]
    rw [seedTake_ok idx m (j + 1) (by omega)]
    rw [List.drop_eq_getElem_cons hj, List.take_succ_cons]

lemma seedTake_err {α : Type} (idx : List α) :
    ∀ (m j : ℕ), 1 ≤ m → idx.length < j + m → seedTake idx j m = .error "IndexError"
  | m + 1, j, _, h => by
    simp only [seedTake]
    by_cases hj : j < idx.length
    · rw [List.get?_eq_getElem?, List.getElem?_eq_getElem hj]
      rw [seedTake_err idx m (j + 1) (by omega) (by omega)]
    · rw [List.get?_eq_getElem?, List.getElem?_eq_none (by omega)]

/-- Relation produced by the seeding loop of get_n_split: for each class
value in order, its shuffled position array `idx` (a permutation of the
class's positions, with at least `k` of them) contributed `idx.take k`
as the per-group seeds and `idx.drop k` as the class's leftover. -/
inductive SeedRel (labels : List ℤ) (k : ℕ) :
    List ℤ → List (List ℕ) → List (List ℕ) → Prop
  | nil : SeedRel labels k [] [] []
  | cons (v : ℤ) (vs : List ℤ) (idx : List ℕ) (ss ls : List (List ℕ)) :
      List.Perm idx (classIdx labels v) → k ≤ idx.length →
      SeedRel labels k vs ss ls →
      SeedRel labels k (v :: vs) (idx.take k :: ss) (idx.drop k :: ls)

lemma seedAll_ok (sh : ℕ → List ℕ → List ℕ) (labels : List ℤ) (k : ℕ)
    (Hsh : ∀ a l, List.Perm (sh a l) l) :
    ∀ (vs : List ℤ) (i : ℕ), (∀ v ∈ vs, k ≤ labels.count v) →
      ∃ ss ls, seedAll sh labels k vs i = .ok (ss, ls) ∧ SeedRel labels k vs ss ls
  | [], _, _ => ⟨[], [], rfl, SeedRel.nil⟩
  | v :: vs, i, h => by
    have hidx : List.Perm (sh i (classIdx labels v)) (classIdx labels v) := Hsh i _
    have hlen : k ≤ (sh i (classIdx labels v)).length := by
      rw [hidx.length_eq, length_classIdx]
      exact h v (by simp)
    obtain ⟨ss, ls, heq, hrel⟩ := seedAll_ok sh labels k Hsh vs (i + 1)
      (fun w hw => h w (by simp [hw]))
    refine ⟨(sh i (classIdx labels v)).take k :: ss,
      (sh i (classIdx labels v)).drop k :: ls, ?_, ?_⟩
    · simp only [seedAll]
      rw [seedTake_ok _ k 0 (by omega), heq, pySlice_natCast_drop]
      simp
    · exact SeedRel.cons v vs _ ss ls hidx hlen hrel

lemma seedAll_err (sh : ℕ → List ℕ → List ℕ) (labels : List ℤ) (k : ℕ)
    (Hsh : ∀ a l, List.Perm (sh a l) l) :
    ∀ (vs : List ℤ) (i : ℕ), (∃ v ∈ vs, labels.count v < k) →
      seedAll sh labels k vs i = .error "IndexError"
  | [], _, hex => by simp at hex
  | v :: vs, i, hex => by
    have hlen : (sh i (classIdx labels v)).length = labels.count v :=
      (Hsh i _).length_eq.trans (length_classIdx labels v)
    by_cases hv : labels.count v < k
    · simp only [seedAll]
      rw [seedTake_err _ k 0 (by omega) (by omega)]
    · simp only [seedAll]
      rw [seedTake_ok _ k 0 (by omega)]
      have hex2 : ∃ w ∈ vs, labels.count w < k := by
        obtain ⟨w, hw, hwk⟩ := hex
        rcases List.mem_cons.mp hw with h | h
        · rw [h] at hwk
          exact absurd hwk hv
        · exact ⟨w, h, hwk⟩
      rw [seedAll_err sh labels k Hsh vs (i + 1) hex2]

lemma seedRel_lengths {labels : List ℤ} {k : ℕ} {vs : List ℤ} {ss ls : List (List ℕ)}
    (h : SeedRel labels k vs ss ls) : ss.length = vs.length ∧ ls.length = vs.length := by
  induction h with
  | nil => simp
  | cons v vs idx ss ls hperm hk hrel ih => simp [ih.1, ih.2]

lemma seedRel_row_length {labels : List ℤ} {k : ℕ} {vs : List ℤ} {ss ls : List (List ℕ)}
    (h : SeedRel labels k vs ss ls) : ∀ s ∈ ss, s.length = k := by
  induction h with
  | nil => simp
  | cons v vs idx ss ls hperm hk hrel ih =>
    intro s hs
    rcases List.mem_cons.mp hs with rfl | hs2
    · rw [List.length_take]
      omega
    · exact ih s hs2

lemma seedRel_flatten_perm {labels : List ℤ} {k : ℕ} {vs : List ℤ} {ss ls : List (List ℕ)}
    (h : SeedRel labels k vs ss ls) :
    List.Perm (ss.flatten ++ ls.flatten) ((vs.map (classIdx labels)).flatten) := by
  induction h with
  | nil => simp
  | cons v vs idx ss ls hperm hk hrel ih =>
    rw [List.flatten_cons, List.flatten_cons, List.map_cons, List.flatten_cons]
    refine (append_swap_perm _ _ _ _).trans ?_
    rw [List.take_append_drop]
    exact hperm.append ih

lemma seedRel_ss_flatten_length {labels : List ℤ} {k : ℕ} {vs : List ℤ}
    {ss ls : List (List ℕ)} (h : SeedRel labels k vs ss ls) :
    ss.flatten.length = ss.length * k := by
  induction h with
  | nil => simp
  | cons v vs idx ss ls hperm hk hrel ih =>
    rw [List.flatten_cons, List.length_append, List.length_take, List.length_cons, ih]
    have : min k idx.length = k := by omega
    rw [this]
    ring

lemma seedRel_col_mem {labels : List ℤ} {k : ℕ} {vs : List ℤ} {ss ls : List (List ℕ)}
    (h : SeedRel labels k vs ss ls) (j : ℕ) (hj : j < k) :
    ∀ v ∈ vs, ∃ x ∈ ss.map (fun s => s.getD j 0), labels.getD x 0 = v := by
  induction h with
  | nil => simp
  | cons v vs idx ss ls hperm hk hrel ih =>
    intro w hw
    simp only [List.map_cons]
    rcases List.mem_cons.mp hw with rfl | hw2
    · refine ⟨(idx.take k).getD j 0, List.mem_cons_self _ _, ?_⟩
      have hgd : (idx.take k).getD j 0 = idx.getD j 0 := by
        rw [List.getD_eq_getElem?_getD, List.getD_eq_getElem?_getD,
          List.getElem?_take_of_lt hj]
      rw [hgd]
      have hmem : idx.getD j 0 ∈ idx := getD_mem_of_lt idx j 0 (by omega)
      exact (mem_classIdx.mp (hperm.mem_iff.mp hmem)).2
    · obtain ⟨x, hx, hlab⟩ := ih w hw2
      exact ⟨x, List.mem_cons_of_mem _ hx, hlab⟩

lemma fillChunks_length {α : Type} (lo : List α) (C : ℕ) :
    ∀ (ts : List ℤ) (start : ℤ), (fillChunks lo C ts start).length = ts.length
  | [], _ => rfl
  | t :: ts, start => by
    simp only [fillChunks, List.length_cons]
    rw [fillChunks_length lo C ts _]

lemma map_sub_sum (ts : List ℤ) (C : ℤ) :
    (ts.map (fun t => t - (C : ℤ))).sum = ts.sum - ts.length * C := by
  induction ts with
  | nil => simp
  | cons t ts ih =>
    simp [ih]
    ring

lemma targetSizes_sum (N : ℕ) (sizes : List ℚ) : (targetSizes N sizes).sum = N := by
  simp [targetSizes]

lemma targetSizes_length (N : ℕ) (sizes : List ℚ) :
    (targetSizes N sizes).length = sizes.length + 1 := by
  simp [targetSizes]

lemma fillChunks_forall₂ {α : Type} (lo : List α) (C : ℕ) :
    ∀ (ts : List ℤ) (start : ℤ), (∀ t ∈ ts, (C : ℤ) ≤ t) → 0 ≤ start →
      start + (ts.map (fun t => t - (C : ℤ))).sum ≤ (lo.length : ℤ) →
      List.Forall₂ (fun ch t => ((ch : List α).length : ℤ) = t - C)
        (fillChunks lo C ts start) ts
  | [], _, _, _, _ => List.Forall₂.nil
  | t :: ts, start, hC, h0, hsum => by
    have htC : (C : ℤ) ≤ t := hC t (by simp)
    have hrest : (0 : ℤ) ≤ (ts.map (fun x => x - (C : ℤ))).sum := by
      apply List.sum_nonneg
      intro x hx
      obtain ⟨t2, ht2, rfl⟩ := List.mem_map.mp hx
      have := hC t2 (by simp [ht2])
      omega
    simp only [List.map_cons, List.sum_cons] at hsum
    simp only [fillChunks]
    refine List.Forall₂.cons ?_ ?_
    · rw [pySlice_nonneg_length lo start (start + (t - C)) h0 (by omega) (by omega)]
      ring
    · exact fillChunks_forall₂ lo C ts (start + (t - C))
        (fun x hx => hC x (by simp [hx])) (by omega) (by omega)

lemma fillChunks_flatten {α : Type} (lo : List α) (C : ℕ) :
    ∀ (ts : List ℤ) (start : ℤ), (∀ t ∈ ts, (C : ℤ) ≤ t) → 0 ≤ start →
      start + (ts.map (fun t => t - (C : ℤ))).sum = (lo.length : ℤ) →
      (fillChunks lo C ts start).flatten = lo.drop start.toNat
  | [], start, _, h0, hsum => by
    simp only [fillChunks, List.flatten_nil]
    simp only [List.map_nil, List.sum_nil, add_zero] at hsum
    symm
    apply List.drop_eq_nil_of_le
    omega
  | t :: ts, start, hC, h0, hsum => by
    have htC : (C : ℤ) ≤ t := hC t (by simp)
    have hrest : (0 : ℤ) ≤ (ts.map (fun x => x - (C : ℤ))).sum := by
      apply List.sum_nonneg
      intro x hx
      obtain ⟨t2, ht2, rfl⟩ := List.mem_map.mp hx
      have := hC t2 (by simp [ht2])
      omega
    simp only [List.map_cons, List.sum_cons] at hsum
    simp only [fillChunks, List.flatten_cons]
    rw [pySlice_nonneg_spec lo start (start + (t - C)) h0 (by omega) (by omega)]
    rw [fillChunks_flatten lo C ts (start + (t - C))
      (fun x hx => hC x (by simp [hx])) (by omega) (by omega)]
    have h2 : (start + (t - C)).toNat = start.toNat + (t - C).toNat := by omega
    rw [h2, show start + (t - C) - start = t - C by ring]
    exact List.drop_take_append_drop lo start.toNat (t - C).toNat

lemma get_n_split_eq_ok (sh : ℕ → List ℕ → List ℕ) (labels : List ℤ) (sizes : List ℚ)
    (Hsh : ∀ a l, List.Perm (sh a l) l) (hne : labels ≠ [])
    (hk : ∀ v ∈ labels, sizes.length + 1 ≤ labels.count v) :
    ∃ ss ls, SeedRel labels (sizes.length + 1) (uniqueSorted labels) ss ls ∧
      get_n_split sh labels sizes =
        .ok (List.zipWith (fun a b => a ++ b) (seedCols 0 ss (sizes.length + 1))
          (fillChunks (sh (uniqueSorted labels).length ls.flatten) ss.length
            (targetSizes labels.length sizes) 0)) := by
  obtain ⟨ss, ls, heq, hrel⟩ := seedAll_ok sh labels (sizes.length + 1) Hsh
    (uniqueSorted labels) 0 (fun v hv => hk v (mem_uniqueSorted.mp hv))
  refine ⟨ss, ls, hrel, ?_⟩
  have hlsne : ls ≠ [] := by
    have hlen := (seedRel_lengths hrel).2
    intro h
    rw [h] at hlen
    exact uniqueSorted_ne_nil hne (List.length_eq_zero.mp hlen.symm)
  unfold get_n_split
  simp only [heq]
  cases ls with
  | nil => exact absurd rfl hlsne
  | cons l0 lrest => simp only [npConcat_cons]

/-- C6: when every class present in labels has at least k = len(sizes)+1
members (and labels is non-empty), get_n_split succeeds with k groups
and every returned group contains at least one index of every class. -/
theorem get_n_split_per_class_min (sh : ℕ → List ℕ → List ℕ) (labels : List ℤ)
    (sizes : List ℚ) (Hsh : ∀ a l, List.Perm (sh a l) l) (hne : labels ≠ [])
    (hk : ∀ v ∈ labels, sizes.length + 1 ≤ labels.count v) :
    ∃ gs, get_n_split sh labels sizes = .ok gs ∧ gs.length = sizes.length + 1 ∧
      ∀ g ∈ gs, ∀ v ∈ labels, ∃ x ∈ g, labels.getD x 0 = v := by
  obtain ⟨ss, ls, hrel, heq⟩ := get_n_split_eq_ok sh labels sizes Hsh hne hk
  have hcols : (seedCols 0 ss (sizes.length + 1)).length = sizes.length + 1 := by
    simp [seedCols]
  have hfills : (fillChunks (sh (uniqueSorted labels).length ls.flatten) ss.length
      (targetSizes labels.length sizes) 0).length = sizes.length + 1 := by
    rw [fillChunks_length, targetSizes_length]
  refine ⟨_, heq, ?_, ?_⟩
  · rw [List.length_zipWith, hcols, hfills]
    omega
  · intro g hg v hv
    obtain ⟨j, hj, hgj⟩ := List.getElem_of_mem hg
    rw [List.length_zipWith, hcols, hfills] at hj
    have hjk : j < sizes.length + 1 := by omega
    rw [List.getElem_zipWith] at hgj
    obtain ⟨x, hx, hlab⟩ := seedRel_col_mem hrel j hjk v (mem_uniqueSorted.mpr hv)
    refine ⟨x, ?_, hlab⟩
    rw [← hgj]
    apply List.mem_append_left
    have hjk2 : j < (seedCols 0 ss (sizes.length + 1)).length := by omega
    have hcolj : (seedCols 0 ss (sizes.length + 1))[j]
        = ss.map (fun s => s.getD j 0) := by
      unfold seedCols
      simp only [List.getElem_map, List.getElem_range]
    rw [hcolj]
    exact hx

/-- Witness for C6 at a concrete input. -/
theorem get_n_split_per_class_min_witness :
    ([0, 0, 1, 1] : List ℤ) ≠ [] ∧
    (∀ v ∈ ([0, 0, 1, 1] : List ℤ), [(1 : ℚ)/2].length + 1 ≤ ([0, 0, 1, 1] : List ℤ).count v) ∧
    (∃ gs, get_n_split (fun _ l => l) [0, 0, 1, 1] [(1 : ℚ)/2] = .ok gs ∧
      gs.length = [(1 : ℚ)/2].length + 1 ∧
      ∀ g ∈ gs, ∀ v ∈ ([0, 0, 1, 1] : List ℤ), ∃ x ∈ g, ([0, 0, 1, 1] : List ℤ).getD x 0 = v) :=
  ⟨by decide, by decide,
    get_n_split_per_class_min (fun _ l => l) [0, 0, 1, 1] [(1 : ℚ)/2]
      (fun _ l => List.Perm.refl l) (by decide) (by decide)⟩

/-- C2 (amended): when some class present in labels has fewer than
k = len(sizes)+1 members, get_n_split raises IndexError in the per-class
seeding loop instead of degrading gracefully. -/
theorem get_n_split_short_class_raises (sh : ℕ → List ℕ → List ℕ) (labels : List ℤ)
    (sizes : List ℚ) (Hsh : ∀ a l, List.Perm (sh a l) l)
    (h : ∃ v ∈ labels, labels.count v < sizes.length + 1) :
    get_n_split sh labels sizes = .error "IndexError" := by
  have herr := seedAll_err sh labels (sizes.length + 1) Hsh (uniqueSorted labels) 0 (by
    obtain ⟨v, hv, hvk⟩ := h
    exact ⟨v, mem_uniqueSorted.mpr hv, hvk⟩)
  unfold get_n_split
  simp only [herr]

/-- Witness for the amended C2 at a concrete input. -/
theorem get_n_split_short_class_raises_witness :
    (∃ v ∈ ([0] : List ℤ), ([0] : List ℤ).count v < [(1 : ℚ)/2].length + 1) ∧
    get_n_split (fun _ l => l) [0] [(1 : ℚ)/2] = .error "IndexError" :=
  ⟨by decide,
    get_n_split_short_class_raises (fun _ l => l) [0] [(1 : ℚ)/2]
      (fun _ l => List.Perm.refl l) (by decide)⟩

/-- C2 (counterexample to the claim as stated): for labels = [0] and
sizes = [1/2] (so k = 2 and class 0 has only 1 < 2 members) get_n_split
does raise an error — an IndexError from reading index[1] in the seeding
loop — rather than assigning what is available and returning groups. -/
theorem get_n_split_short_class_error_cex :
    get_n_split (fun _ l => l) [0] [(1 : ℚ)/2] = .error "IndexError" ∧
    ([0] : List ℤ).count 0 < [(1 : ℚ)/2].length + 1 := by
  constructor
  · rfl
  · decide

lemma forall₂_zipWith_length {α : Type} (C : ℕ) :
    ∀ (cols : List (List α)) {fills : List (List α)} {ts : List ℤ},
      (∀ col ∈ cols, col.length = C) → cols.length = fills.length →
      List.Forall₂ (fun ch t => ((ch : List α).length : ℤ) = t - C) fills ts →
      List.Forall₂ (fun g t => ((g : List α).length : ℤ) = t)
        (List.zipWith (fun a b => a ++ b) cols fills) ts := by
  intro cols
  induction cols with
  | nil =>
    intro fills ts _ hlen hf
    have hfe : fills = [] := List.length_eq_zero.mp hlen.symm
    subst hfe
    cases hf
    exact List.Forall₂.nil
  | cons c cols ih =>
    intro fills ts hC hlen hf
    cases fills with
    | nil => simp at hlen
    | cons f fills =>
      cases hf with
      | cons hft hrest =>
        rw [List.zipWith_cons_cons]
        refine List.Forall₂.cons ?_
          (ih (fun x hx => hC x (List.mem_cons_of_mem _ hx)) (by simpa using hlen) hrest)
        rw [List.length_append, hC c (List.mem_cons_self _ _)]
        push_cast at hft ⊢
        omega

/-- C1 (amended): besides sum(sizes) ≤ 1 and every class having at least
k = len(sizes)+1 members, additionally require every target size to be at
least the number C of distinct classes (so that no fill amount
target[i] - C is negative and the fill cursor never moves backwards);
then the k groups returned by get_n_split are pairwise disjoint and
their flattening is a permutation of the full index range, every position
occurring exactly once across all groups. -/
theorem get_n_split_partition_amended (sh : ℕ → List ℕ → List ℕ) (labels : List ℤ)
    (sizes : List ℚ) (Hsh : ∀ a l, List.Perm (sh a l) l) (hne : labels ≠ [])
    (hk : ∀ v ∈ labels, sizes.length + 1 ≤ labels.count v)
    (_hsum : sizes.sum ≤ 1)
    (htgt : ∀ t ∈ targetSizes labels.length sizes,
      ((uniqueSorted labels).length : ℤ) ≤ t) :
    ∃ gs, get_n_split sh labels sizes = .ok gs ∧
      List.Perm gs.flatten (List.range labels.length) ∧
      gs.Pairwise List.Disjoint := by
  obtain ⟨ss, ls, hrel, heq⟩ := get_n_split_eq_ok sh labels sizes Hsh hne hk
  have hC : ss.length = (uniqueSorted labels).length := (seedRel_lengths hrel).1
  have hcov := (seedRel_flatten_perm hrel).trans (classIdx_cover labels)
  have hsslen := seedRel_ss_flatten_length hrel
  have htot : ss.flatten.length + ls.flatten.length = labels.length := by
    have h := hcov.length_eq
    rw [List.length_append, List.length_range] at h
    exact h
  have hlo : List.Perm (sh (uniqueSorted labels).length ls.flatten) ls.flatten := Hsh _ _
  have hlolen : (sh (uniqueSorted labels).length ls.flatten).length = ls.flatten.length :=
    hlo.length_eq
  have htC : ∀ t ∈ targetSizes labels.length sizes, (ss.length : ℤ) ≤ t := by
    intro t ht
    rw [hC]
    exact htgt t ht
  have h5 : (ss.flatten.length : ℤ) = ((sizes.length + 1 : ℕ) : ℤ) * (ss.length : ℤ) := by
    rw [hsslen]
    push_cast
    ring
  have h4 : (ss.flatten.length : ℤ) + (ls.flatten.length : ℤ) = (labels.length : ℤ) := by
    exact_mod_cast htot
  have hsum0 : (0 : ℤ) +
      ((targetSizes labels.length sizes).map (fun t => t - (ss.length : ℤ))).sum
      = ((sh (uniqueSorted labels).length ls.flatten).length : ℤ) := by
    rw [map_sub_sum, targetSizes_sum, targetSizes_length, hlolen]
    linarith [h4, h5]
  have hfill := fillChunks_flatten (sh (uniqueSorted labels).length ls.flatten) ss.length
    (targetSizes labels.length sizes) 0 htC le_rfl hsum0
  rw [Int.toNat_zero, List.drop_zero] at hfill
  have hcolsperm := seedCols_flatten_perm 0 (sizes.length + 1) ss (seedRel_row_length hrel)
  have hflat : List.Perm (List.zipWith (fun a b => a ++ b)
      (seedCols 0 ss (sizes.length + 1))
      (fillChunks (sh (uniqueSorted labels).length ls.flatten) ss.length
        (targetSizes labels.length sizes) 0)).flatten (List.range labels.length) := by
    refine (flatten_zipWith_append_perm _ _ ?_).trans ?_
    · simp [seedCols, fillChunks_length, targetSizes_length]
    · rw [hfill]
      exact (hcolsperm.append hlo).trans hcov
  have hnd := hflat.nodup_iff.mpr (List.nodup_range _)
  exact ⟨_, heq, hflat, (List.nodup_flatten.mp hnd).2⟩

/-- Witness for the amended C1 at a concrete input. -/
theorem get_n_split_partition_amended_witness :
    ([0, 0, 1, 1] : List ℤ) ≠ [] ∧
    (∀ v ∈ ([0, 0, 1, 1] : List ℤ),
      [(1 : ℚ)/2].length + 1 ≤ ([0, 0, 1, 1] : List ℤ).count v) ∧
    ([(1 : ℚ)/2].sum ≤ 1) ∧
    (∀ t ∈ targetSizes ([0, 0, 1, 1] : List ℤ).length [(1 : ℚ)/2],
      ((uniqueSorted [0, 0, 1, 1]).length : ℤ) ≤ t) ∧
    (∃ gs, get_n_split (fun _ l => l) [0, 0, 1, 1] [(1 : ℚ)/2] = .ok gs ∧
      List.Perm gs.flatten (List.range ([0, 0, 1, 1] : List ℤ).length) ∧
      gs.Pairwise List.Disjoint) := by
  have hts : targetSizes ([0, 0, 1, 1] : List ℤ).length [(1 : ℚ)/2] = [2, 2] := by
    norm_num [targetSizes, pyTrunc]
  refine ⟨by decide, by decide, by norm_num, ?_, ?_⟩
  · rw [hts]
    decide
  · exact get_n_split_partition_amended (fun _ l => l) [0, 0, 1, 1] [(1 : ℚ)/2]
      (fun _ l => List.Perm.refl l) (by decide) (by decide) (by norm_num)
      (by rw [hts]; decide)

/-- C1 (counterexample to the claim as stated): labels with two classes
of four members each, sizes = [3/8, 1/8] (sum 1/2 ≤ 1, every class has
4 ≥ 3 = k members), and the identity shuffle. The fill loop's second
group needs target 1 - 2 seeded items = -1 items, Python slice
arithmetic turns leftover[1:0] into an empty slice but moves the cursor
back to 0, and group 2 then re-consumes leftover position 3: index 3
appears in both group 0 and group 2, so the groups are not pairwise
disjoint and position 3 occurs twice across groups. -/
theorem get_n_split_duplicate_index_cex :
    get_n_split (fun _ l => l) [0, 0, 0, 0, 1, 1, 1, 1] [(3 : ℚ)/8, (1 : ℚ)/8]
      = .ok [[0, 4, 3], [1, 5], [2, 6, 3, 7]] ∧
    ((3 : ℚ)/8 + (1 : ℚ)/8) ≤ 1 ∧
    (∀ v ∈ ([0, 0, 0, 0, 1, 1, 1, 1] : List ℤ),
      [(3 : ℚ)/8, (1 : ℚ)/8].length + 1 ≤ ([0, 0, 0, 0, 1, 1, 1, 1] : List ℤ).count v) ∧
    (3 : ℕ) ∈ ([0, 4, 3] : List ℕ) ∧ (3 : ℕ) ∈ ([2, 6, 3, 7] : List ℕ) ∧
    ([[0, 4, 3], [1, 5], [2, 6, 3, 7]] : List (List ℕ)).flatten.count 3 = 2 := by
  have hts : targetSizes ([0, 0, 0, 0, 1, 1, 1, 1] : List ℤ).length [(3 : ℚ)/8, (1 : ℚ)/8]
      = [3, 1, 4] := by
    norm_num [targetSizes, pyTrunc]
  refine ⟨?_, by norm_num, by decide, by decide, by decide, by decide⟩
  unfold get_n_split
  simp only [hts]
  rfl

/-- C5 (amended): the target sizes are target[j] = floor(N*sizes[j])
(int() truncation equals floor because each size is nonnegative) with
the last target the remainder, so targets always sum exactly to N; and
when every class has at least k = len(sizes)+1 members and additionally
every target is at least the number C of distinct classes (so no fill
amount target[i] - C is negative; the leftover pool then has exactly
the required size and no PoolExhaustion occurs), the length of each
returned group equals its target. -/
theorem get_n_split_target_sizes_amended (sh : ℕ → List ℕ → List ℕ) (labels : List ℤ)
    (sizes : List ℚ) (Hsh : ∀ a l, List.Perm (sh a l) l) (hne : labels ≠ [])
    (hk : ∀ v ∈ labels, sizes.length + 1 ≤ labels.count v)
    (hpos : ∀ s ∈ sizes, 0 ≤ s)
    (htgt : ∀ t ∈ targetSizes labels.length sizes,
      ((uniqueSorted labels).length : ℤ) ≤ t) :
    (targetSizes labels.length sizes).sum = (labels.length : ℤ) ∧
    (∀ s ∈ sizes, pyTrunc ((labels.length : ℚ) * s) = ⌊(labels.length : ℚ) * s⌋) ∧
    ∃ gs, get_n_split sh labels sizes = .ok gs ∧
      List.Forall₂ (fun g t => ((g : List ℕ).length : ℤ) = t) gs
        (targetSizes labels.length sizes) := by
  refine ⟨targetSizes_sum _ _, ?_, ?_⟩
  · intro s hs
    unfold pyTrunc
    rw [if_neg (not_lt.mpr (mul_nonneg (by positivity) (hpos s hs)))]
  · obtain ⟨ss, ls, hrel, heq⟩ := get_n_split_eq_ok sh labels sizes Hsh hne hk
    have hC : ss.length = (uniqueSorted labels).length := (seedRel_lengths hrel).1
    have hcov := (seedRel_flatten_perm hrel).trans (classIdx_cover labels)
    have hsslen := seedRel_ss_flatten_length hrel
    have htot : ss.flatten.length + ls.flatten.length = labels.length := by
      have h := hcov.length_eq
      rw [List.length_append, List.length_range] at h
      exact h
    have hlo := Hsh (uniqueSorted labels).length ls.flatten
    have hlolen : (sh (uniqueSorted labels).length ls.flatten).length
        = ls.flatten.length := hlo.length_eq
    have htC : ∀ t ∈ targetSizes labels.length sizes, (ss.length : ℤ) ≤ t := by
      intro t ht
      rw [hC]
      exact htgt t ht
    have h5 : (ss.flatten.length : ℤ) = ((sizes.length + 1 : ℕ) : ℤ) * (ss.length : ℤ) := by
      rw [hsslen]
      push_cast
      ring
    have h4 : (ss.flatten.length : ℤ) + (ls.flatten.length : ℤ) = (labels.length : ℤ) := by
      exact_mod_cast htot
    have hsum0 : (0 : ℤ) +
        ((targetSizes labels.length sizes).map (fun t => t - (ss.length : ℤ))).sum
        = ((sh (uniqueSorted labels).length ls.flatten).length : ℤ) := by
      rw [map_sub_sum, targetSizes_sum, targetSizes_length, hlolen]
      linarith [h4, h5]
    have hfillF := fillChunks_forall₂ (sh (uniqueSorted labels).length ls.flatten)
      ss.length (targetSizes labels.length sizes) 0 htC le_rfl (le_of_eq hsum0)
    refine ⟨_, heq, ?_⟩
    refine forall₂_zipWith_length ss.length (seedCols 0 ss (sizes.length + 1)) ?_ ?_ hfillF
    · intro col hcol
      unfold seedCols at hcol
      obtain ⟨j, hj, rfl⟩ := List.mem_map.mp hcol
      simp
    · rw [fillChunks_length, targetSizes_length]
      simp [seedCols]

/-- Witness for the amended C5 at a concrete input. -/
theorem get_n_split_target_sizes_amended_witness :
    ([0, 0, 1, 1] : List ℤ) ≠ [] ∧
    (∀ v ∈ ([0, 0, 1, 1] : List ℤ),
      [(1 : ℚ)/2].length + 1 ≤ ([0, 0, 1, 1] : List ℤ).count v) ∧
    (∀ s ∈ [(1 : ℚ)/2], 0 ≤ s) ∧
    (∀ t ∈ targetSizes ([0, 0, 1, 1] : List ℤ).length [(1 : ℚ)/2],
      ((uniqueSorted [0, 0, 1, 1]).length : ℤ) ≤ t) ∧
    ((targetSizes ([0, 0, 1, 1] : List ℤ).length [(1 : ℚ)/2]).sum
      = (([0, 0, 1, 1] : List ℤ).length : ℤ) ∧
    (∀ s ∈ [(1 : ℚ)/2], pyTrunc ((([0, 0, 1, 1] : List ℤ).length : ℚ) * s)
      = ⌊((([0, 0, 1, 1] : List ℤ).length : ℚ)) * s⌋) ∧
    ∃ gs, get_n_split (fun _ l => l) [0, 0, 1, 1] [(1 : ℚ)/2] = .ok gs ∧
      List.Forall₂ (fun g t => ((g : List ℕ).length : ℤ) = t) gs
        (targetSizes ([0, 0, 1, 1] : List ℤ).length [(1 : ℚ)/2])) := by
  have hts : targetSizes ([0, 0, 1, 1] : List ℤ).length [(1 : ℚ)/2] = [2, 2] := by
    norm_num [targetSizes, pyTrunc]
  refine ⟨by decide, by decide, by norm_num, ?_, ?_⟩
  · rw [hts]
    decide
  · exact get_n_split_target_sizes_amended (fun _ l => l) [0, 0, 1, 1] [(1 : ℚ)/2]
      (fun _ l => List.Perm.refl l) (by decide) (by decide) (by norm_num)
      (by rw [hts]; decide)

/-- C5 (counterexample to the claim as stated): same input as the C1
counterexample: targets are [3, 1, 4], but the returned group 1 has
length 2 ≠ target 1, although every class has at least k members and
the leftover pool (2 items) exactly covers the total fill demand
(1 + (-1) + 2 = 2), i.e. the pool is not exhausted: the mismatch comes
from seeding alone already exceeding the small target, not from
PoolExhaustion. -/
theorem get_n_split_size_mismatch_cex :
    get_n_split (fun _ l => l) [0, 0, 0, 0, 1, 1, 1, 1] [(3 : ℚ)/8, (1 : ℚ)/8]
      = .ok [[0, 4, 3], [1, 5], [2, 6, 3, 7]] ∧
    targetSizes ([0, 0, 0, 0, 1, 1, 1, 1] : List ℤ).length [(3 : ℚ)/8, (1 : ℚ)/8]
      = [3, 1, 4] ∧
    (∀ v ∈ ([0, 0, 0, 0, 1, 1, 1, 1] : List ℤ),
      [(3 : ℚ)/8, (1 : ℚ)/8].length + 1 ≤ ([0, 0, 0, 0, 1, 1, 1, 1] : List ℤ).count v) ∧
    ¬ ((([[0, 4, 3], [1, 5], [2, 6, 3, 7]] : List (List ℕ)).getD 1 []).length : ℤ)
      = ([3, 1, 4] : List ℤ).getD 1 0 := by
  have hts : targetSizes ([0, 0, 0, 0, 1, 1, 1, 1] : List ℤ).length
      [(3 : ℚ)/8, (1 : ℚ)/8] = [3, 1, 4] := by
    norm_num [targetSizes, pyTrunc]
  refine ⟨?_, hts, by decide, by decide⟩
  unfold get_n_split
  simp only [hts]
  rfl

/-- C7 (counterexample to the claim as stated): get_n_shot with n = -1
(a negative shot count) raises no InvalidArgument — it returns normally,
Python's negative slice semantics putting all but the last item of each
class into index_1 and the last one into index_2. -/
theorem get_n_shot_negative_n_no_error :
    get_n_shot (fun _ l => l) [7, 7, 7] (-1) = .ok ([0, 1], [2]) := rfl

/-- C7 (amended): neither splitter validates its arguments. A negative
shot count and sizes outside [0, 1] are accepted and produce a normal
return; an empty labels sequence does raise, but it is the ValueError of
np.concatenate on an empty list, not a dedicated InvalidArgument. -/
theorem no_argument_validation :
    get_n_shot (fun _ l => l) ([] : List ℤ) 1 = .error "ValueError" ∧
    get_n_split (fun _ l => l) ([] : List ℤ) [(1 : ℚ)/2] = .error "ValueError" ∧
    get_n_shot (fun _ l => l) [0, 0] (-1) = .ok ([0], [1]) ∧
    get_n_split (fun _ l => l) [0, 0] [(2 : ℚ)] = .ok [[0], [1]] := by
  refine ⟨rfl, rfl, rfl, ?_⟩
  have hts : targetSizes ([0, 0] : List ℤ).length [(2 : ℚ)] = [4, -2] := by
    norm_num [targetSizes, pyTrunc]
  unfold get_n_split
  simp only [hts]
  rfl

/-! ### Store-passing embedding for the frame claim (C9)

numpy aliasing made explicit: arrays live in a store; `np.array(labels)`
allocates a fresh copy, boolean-mask indexing (`index_all[labels == val]`)
allocates a fresh array, `np.concatenate` allocates a fresh array, and
`np.random.shuffle(x)` writes in place to the array it is given. The
caller's `labels` array is only ever read. -/

/-- A heap of numpy integer arrays: `mem` maps references to contents,
references below `next` are the allocated ones. -/
structure Store where
  mem : ℕ → List ℤ
  next : ℕ

/-- Allocate a fresh array holding `v`; returns its reference. -/
def alloc (st : Store) (v : List ℤ) : ℕ × Store :=
  (st.next, ⟨fun r => if r = st.next then v else st.mem r, st.next + 1⟩)

/-- In-place update of the array at reference `r` (numpy shuffle). -/
def write (st : Store) (r : ℕ) (v : List ℤ) : Store :=
  ⟨fun x => if x = r then v else st.mem x, st.next⟩

/-- Variant of `classIdx` with ℤ-valued positions, as stored in numpy int arrays. -/
def classIdxZ (labels : List ℤ) (v : ℤ) : List ℤ :=
  (classIdx labels v).map (fun i => (i : ℤ))

/-- One per-class step of a splitter loop: allocate the boolean-mask
result (a fresh array of the class's positions) and shuffle it in place;
returns the reference of the shuffled array. -/
def shotStep (shz : ℕ → List ℤ → List ℤ) (i : ℕ) (st : Store) (v : List ℤ) : ℕ × Store :=
  let a := alloc st v
  (a.1, write a.2 a.1 (shz i (a.2.mem a.1)))

lemma alloc_mem_lt (st : Store) (v : List ℤ) (r : ℕ) (h : r < st.next) :
    (alloc st v).2.mem r = st.mem r := if_neg (by omega)

lemma shotStep_next (shz : ℕ → List ℤ → List ℤ) (i : ℕ) (st : Store) (v : List ℤ) :
    (shotStep shz i st v).2.next = st.next + 1 := rfl

lemma shotStep_mem (shz : ℕ → List ℤ → List ℤ) (i : ℕ) (st : Store) (v : List ℤ)
    (r : ℕ) (h : r < st.next) : (shotStep shz i st v).2.mem r = st.mem r := by
  have h1 : r ≠ st.next := by omega
  simp [shotStep, write, alloc, h1]

/-- The loop of `get_n_shot` over classes of the labels array at `lref`,
in the store-passing embedding. -/
def shotLoopH (shz : ℕ → List ℤ → List ℤ) (lref : ℕ) (n : ℤ) :
    List ℤ → ℕ → Store → (List (List ℤ) × List (List ℤ)) × Store
  | [], _, st => (([], []), st)
  | v :: vs, i, st =>
    let p := shotStep shz i st (classIdxZ (st.mem lref) v)
    let idx := p.2.mem p.1
    let r := shotLoopH shz lref n vs (i + 1) p.2
    ((pySlice idx 0 n :: r.1.1, pySlice idx n idx.length :: r.1.2), r.2)

/-- Model of `get_n_shot` in the store-passing embedding: `labels = np.array(labels)`
copies the caller's array into a fresh one, then the per-class loop runs,
then the two `np.concatenate` calls (fresh result arrays, returned by
value here). -/
def get_n_shotH (shz : ℕ → List ℤ → List ℤ) (st0 : Store) (labelsRef : ℕ) (n : ℤ) :
    Except String (List ℤ × List ℤ) × Store :=
  let a := alloc st0 (st0.mem labelsRef)
  let labels := a.2.mem a.1
  let r := shotLoopH shz a.1 n (uniqueSorted labels) 0 a.2
  match npConcat r.1.1, npConcat r.1.2 with
  | .ok i1, .ok i2 => (.ok (i1, i2), r.2)
  | .error e, _ => (.error e, r.2)
  | _, .error e => (.error e, r.2)

/-- The seeding loop of `get_n_split` over classes, in the store-passing
embedding (the seeding reads `idx[0..k-1]` and may raise IndexError). -/
def splitSeedLoopH (shz : ℕ → List ℤ → List ℤ) (lref : ℕ) (k : ℕ) :
    List ℤ → ℕ → Store → (Except String (List (List ℤ) × List (List ℤ))) × Store
  | [], _, st => (.ok ([], []), st)
  | v :: vs, i, st =>
    let p := shotStep shz i st (classIdxZ (st.mem lref) v)
    let idx := p.2.mem p.1
    match seedTake idx 0 k with
    | .error e => (.error e, p.2)
    | .ok s =>
      match splitSeedLoopH shz lref k vs (i + 1) p.2 with
      | (.error e, st2) => (.error e, st2)
      | (.ok q, st2) => (.ok (s :: q.1, pySlice idx (k : ℤ) idx.length :: q.2), st2)

/-- Model of `get_n_split` in the store-passing embedding: copy the caller's
labels, run the seeding loop, `np.concatenate` the leftovers into a
fresh array, shuffle it in place, and assemble the groups. -/
def get_n_splitH (shz : ℕ → List ℤ → List ℤ) (st0 : Store) (labelsRef : ℕ)
    (sizes : List ℚ) : Except String (List (List ℤ)) × Store :=
  let k := sizes.length + 1
  let a := alloc st0 (st0.mem labelsRef)
  let labels := a.2.mem a.1
  match splitSeedLoopH shz a.1 k (uniqueSorted labels) 0 a.2 with
  | (.error e, st1) => (.error e, st1)
  | (.ok p, st1) =>
    match npConcat p.2 with
    | .error e => (.error e, st1)
    | .ok leftover =>
      let b := alloc st1 leftover
      let st2 := write b.2 b.1 (shz (uniqueSorted labels).length (b.2.mem b.1))
      let lo := st2.mem b.1
      (.ok (List.zipWith (fun x y => x ++ y) (seedCols (0 : ℤ) p.1 k)
        (fillChunks lo p.1.length (targetSizes labels.length sizes) 0)), st2)

lemma shotLoopH_frame (shz : ℕ → List ℤ → List ℤ) (lref : ℕ) (n : ℤ) :
    ∀ (vs : List ℤ) (i : ℕ) (st : Store),
      st.next ≤ (shotLoopH shz lref n vs i st).2.next ∧
      ∀ r, r < st.next → (shotLoopH shz lref n vs i st).2.mem r = st.mem r
  | [], _, _ => ⟨le_refl _, fun _ _ => rfl⟩
  | v :: vs, i, st => by
    obtain ⟨ih1, ih2⟩ := shotLoopH_frame shz lref n vs (i + 1)
      (shotStep shz i st (classIdxZ (st.mem lref) v)).2
    have hstep := shotStep_next shz i st (classIdxZ (st.mem lref) v)
    rw [hstep] at ih1
    constructor
    · show st.next ≤ (shotLoopH shz lref n vs (i + 1)
        (shotStep shz i st (classIdxZ (st.mem lref) v)).2).2.next
      omega
    · intro r hr
      show (shotLoopH shz lref n vs (i + 1)
        (shotStep shz i st (classIdxZ (st.mem lref) v)).2).2.mem r = st.mem r
      rw [ih2 r (by rw [hstep]; omega)]
      exact shotStep_mem shz i st _ r hr

lemma splitSeedLoopH_frame (shz : ℕ → List ℤ → List ℤ) (lref : ℕ) (k : ℕ) :
    ∀ (vs : List ℤ) (i : ℕ) (st : Store),
      st.next ≤ (splitSeedLoopH shz lref k vs i st).2.next ∧
      ∀ r, r < st.next → (splitSeedLoopH shz lref k vs i st).2.mem r = st.mem r
  | [], _, _ => ⟨le_refl _, fun _ _ => rfl⟩
  | v :: vs, i, st => by
    obtain ⟨ih1, ih2⟩ := splitSeedLoopH_frame shz lref k vs (i + 1)
      (shotStep shz i st (classIdxZ (st.mem lref) v)).2
    have hstep := shotStep_next shz i st (classIdxZ (st.mem lref) v)
    have hmemstep := fun r hr => shotStep_mem shz i st (classIdxZ (st.mem lref) v) r hr
    rw [hstep] at ih1
    simp only [splitSeedLoopH]
    cases hseed : seedTake ((shotStep shz i st (classIdxZ (st.mem lref) v)).2.mem
        (shotStep shz i st (classIdxZ (st.mem lref) v)).1) 0 k with
    | error e =>
      refine ⟨by rw [hstep]; omega, ?_⟩
      intro r hr
      exact hmemstep r hr
    | ok s =>
      rcases hrec : splitSeedLoopH shz lref k vs (i + 1)
          (shotStep shz i st (classIdxZ (st.mem lref) v)).2 with ⟨res, st2⟩
      rw [hrec] at ih1 ih2
      have h1 : st.next + 1 ≤ st2.next := ih1
      have h2 : ∀ r, r < st.next → st2.mem r = st.mem r := by
        intro r hr
        exact (ih2 r (by rw [hstep]; omega)).trans (hmemstep r hr)
      cases res with
      | error e => exact ⟨le_trans (Nat.le_succ st.next) h1, h2⟩
      | ok q => exact ⟨le_trans (Nat.le_succ st.next) h1, h2⟩

lemma write_mem_ne (st : Store) (w : ℕ) (v : List ℤ) (r : ℕ) (h : r ≠ w) :
    (write st w v).mem r = st.mem r := if_neg h

lemma get_n_shotH_frame (shz : ℕ → List ℤ → List ℤ) (st : Store) (labelsRef : ℕ) (n : ℤ)
    (r : ℕ) (h : r < st.next) :
    (get_n_shotH shz st labelsRef n).2.mem r = st.mem r := by
  obtain ⟨_, h2⟩ := shotLoopH_frame shz (alloc st (st.mem labelsRef)).1 n
    (uniqueSorted ((alloc st (st.mem labelsRef)).2.mem (alloc st (st.mem labelsRef)).1)) 0
    (alloc st (st.mem labelsRef)).2
  have hloop : (shotLoopH shz (alloc st (st.mem labelsRef)).1 n
      (uniqueSorted ((alloc st (st.mem labelsRef)).2.mem (alloc st (st.mem labelsRef)).1)) 0
      (alloc st (st.mem labelsRef)).2).2.mem r = st.mem r := by
    rw [h2 r (by show r < st.next + 1; omega)]
    exact alloc_mem_lt st _ r h
  simp only [get_n_shotH]
  split
  · exact hloop
  · exact hloop
  · exact hloop

lemma get_n_splitH_frame (shz : ℕ → List ℤ → List ℤ) (st : Store) (labelsRef : ℕ)
    (sizes : List ℚ) (r : ℕ) (h : r < st.next) :
    (get_n_splitH shz st labelsRef sizes).2.mem r = st.mem r := by
  obtain ⟨h1, h2⟩ := splitSeedLoopH_frame shz (alloc st (st.mem labelsRef)).1
    (sizes.length + 1)
    (uniqueSorted ((alloc st (st.mem labelsRef)).2.mem (alloc st (st.mem labelsRef)).1)) 0
    (alloc st (st.mem labelsRef)).2
  rcases hrec : splitSeedLoopH shz (alloc st (st.mem labelsRef)).1 (sizes.length + 1)
      (uniqueSorted ((alloc st (st.mem labelsRef)).2.mem (alloc st (st.mem labelsRef)).1)) 0
      (alloc st (st.mem labelsRef)).2 with ⟨res, st1⟩
  rw [hrec] at h1 h2
  have hst1mem : st1.mem r = st.mem r := by
    have hx := h2 r (by show r < st.next + 1; omega)
    exact hx.trans (alloc_mem_lt st _ r h)
  have hst1next : st.next + 1 ≤ st1.next := h1
  simp only [get_n_splitH]
  rw [hrec]
  cases res with
  | error e => exact hst1mem
  | ok p =>
    dsimp only []
    cases hc : npConcat p.2 with
    | error e => exact hst1mem
    | ok leftover =>
      exact (shotStep_mem shz
        (uniqueSorted ((alloc st (st.mem labelsRef)).2.mem
          (alloc st (st.mem labelsRef)).1)).length st1 leftover r (by omega)).trans hst1mem

/-- C9: neither splitter mutates its labels argument. In the
store-passing embedding of the numpy code — where np.array(labels)
copies, boolean-mask indexing and np.concatenate allocate fresh arrays,
and np.random.shuffle writes in place to the (fresh) array it is given —
the caller's labels array reads element-for-element the same after
either call as before, for every shuffle behaviour, shot count and
sizes list. -/
theorem splitters_no_mutation (shz : ℕ → List ℤ → List ℤ) (st : Store) (labelsRef : ℕ)
    (n : ℤ) (sizes : List ℚ) (h : labelsRef < st.next) :
    (get_n_shotH shz st labelsRef n).2.mem labelsRef = st.mem labelsRef ∧
    (get_n_splitH shz st labelsRef sizes).2.mem labelsRef = st.mem labelsRef :=
  ⟨get_n_shotH_frame shz st labelsRef n labelsRef h,
   get_n_splitH_frame shz st labelsRef sizes labelsRef h⟩

/-- Witness for C9 at a concrete store holding one labels array. -/
theorem splitters_no_mutation_witness :
    (0 < (Store.mk (fun _ => [0, 1]) 1).next) ∧
    ((get_n_shotH (fun _ l => l) (Store.mk (fun _ => [0, 1]) 1) 0 1).2.mem 0
      = (Store.mk (fun _ => [0, 1]) 1).mem 0 ∧
     (get_n_splitH (fun _ l => l) (Store.mk (fun _ => [0, 1]) 1) 0 [(1 : ℚ)/2]).2.mem 0
      = (Store.mk (fun _ => [0, 1]) 1).mem 0) :=
  ⟨by decide,
   splitters_no_mutation (fun _ l => l) (Store.mk (fun _ => [0, 1]) 1) 0 1 [(1 : ℚ)/2]
     (by decide)⟩

/-! ### ImgDataset (datasets.py) and the get_dataset dispatch -/

/-- Model of `ImgDataset` (datasets.py lines 13-33): parallel lists of items and
labels plus a transform. The transform field models the composite
`transform ∘ Image.open` applied on access (image decoding is an
external collaborator, opaque here). -/
structure ImgDataset (α β γ : Type) where
  x : List α
  y : List β
  transform : α → γ

/-- Model of `ImgDataset.__getitem__` (datasets.py lines 32-33): Python/numpy
indexing of `x`, then of `y` (a negative index counts from the end, an
index out of range raises IndexError), with the transform applied to
the indexed item. -/
def getitem {α β γ : Type} (ds : ImgDataset α β γ) (i : ℤ) : Except String (γ × β) :=
  match pyGet ds.x i with
  | .error e => .error e
  | .ok a =>
    match pyGet ds.y i with
    | .error e => .error e
    | .ok b => .ok (ds.transform a, b)

/-- numpy fancy indexing `xs[idx]` for an index subset, as used in
`ImgDataset(images[index], labels[index], transform)` (datasets.py
lines 197-198 and 204): selects the listed positions (the splitter
outputs are always in range, so the default is never read). -/
def npTake {α : Type} (d : α) (xs : List α) (idx : List ℕ) : List α :=
  idx.map (fun i => xs.getD i d)

/-- Model of `ImgDataset(images[index], labels[index], transform)`: the
sub-dataset over an index subset. -/
def subDataset {γ : Type} (images : List String) (labels : List ℤ) (tr : String → γ)
    (subset : List ℕ) : ImgDataset String ℤ γ :=
  ⟨npTake "" images subset, npTake 0 labels subset, tr⟩

lemma pyGet_eq {α : Type} (l : List α) (i : ℤ) (d : α) :
    pyGet l i = if 0 ≤ (if i < 0 then i + l.length else i) ∧
        (if i < 0 then i + l.length else i) < (l.length : ℤ) then
      .ok (l.getD (if i < 0 then i + l.length else i).toNat d)
    else .error "IndexError" := by
  simp only [pyGet]
  generalize (if i < 0 then i + (l.length : ℤ) else i) = w
  split_ifs with h1 h2 h2
  · omega
  · rfl
  · have hlt : w.toNat < l.length := by omega
    rw [List.get?_eq_getElem?, List.getElem?_eq_getElem hlt]
    rw [List.getD_eq_getElem l d hlt]
  · have hge : l.length ≤ w.toNat := by omega
    rw [List.get?_eq_getElem?, List.getElem?_eq_none hge]

lemma npTake_getD {α : Type} (d : α) (xs : List α) (idx : List ℕ) (p : ℕ)
    (hp : p < idx.length) :
    (npTake d xs idx).getD p d = xs.getD (idx.getD p 0) d := by
  unfold npTake
  rw [List.getD_eq_getElem?_getD, List.getElem?_map, List.getElem?_eq_getElem hp,
    List.getD_eq_getElem idx 0 hp]
  rfl

/-- C8 (amended): for an ImgDataset built from an in-range index subset,
sample access at position k returns (transform(items[subset[k]]),
labels[subset[k]]) for 0 ≤ k < length; a negative k with
-length ≤ k < 0 wraps around Python-style to position k + length and
returns that sample without error; IndexError is raised exactly when
k ≥ length or k < -length. -/
theorem subDataset_getitem {γ : Type} (images : List String) (labels : List ℤ)
    (tr : String → γ) (subset : List ℕ) (i : ℤ)
    (_hlen : images.length = labels.length)
    (_hv : ∀ j ∈ subset, j < images.length) :
    getitem (subDataset images labels tr subset) i =
      if 0 ≤ (if i < 0 then i + subset.length else i) ∧
         (if i < 0 then i + subset.length else i) < (subset.length : ℤ) then
        .ok (tr (images.getD
              (subset.getD (if i < 0 then i + subset.length else i).toNat 0) ""),
             labels.getD
              (subset.getD (if i < 0 then i + subset.length else i).toNat 0) 0)
      else .error "IndexError" := by
  have hx : (subDataset images labels tr subset).x.length = subset.length := by
    simp [subDataset, npTake]
  have hy : (subDataset images labels tr subset).y.length = subset.length := by
    simp [subDataset, npTake]
  unfold getitem
  rw [pyGet_eq _ i "", pyGet_eq _ i 0, hx, hy]
  generalize (if i < 0 then i + (subset.length : ℤ) else i) = w
  split_ifs with h
  · dsimp only []
    have hp : w.toNat < subset.length := by omega
    show Except.ok (tr ((npTake "" images subset).getD w.toNat ""),
        (npTake 0 labels subset).getD w.toNat 0) = _
    rw [npTake_getD "" images subset _ hp, npTake_getD 0 labels subset _ hp]
  · rfl

/-- Witness for the amended C8 at a concrete input: position 1 of the
subset [2, 0] over three items selects item 0, giving ("a", 5). -/
theorem subDataset_getitem_witness :
    (["a", "b", "c"] : List String).length = ([5, 6, 7] : List ℤ).length ∧
    (∀ j ∈ ([2, 0] : List ℕ), j < (["a", "b", "c"] : List String).length) ∧
    getitem (subDataset ["a", "b", "c"] [5, 6, 7] (fun s => s) [2, 0]) 1 = .ok ("a", 5) :=
  ⟨by decide, by decide,
    (subDataset_getitem ["a", "b", "c"] [5, 6, 7] (fun s => s) [2, 0] 1
      (by decide) (by decide)).trans (by rfl)⟩

/-- C8 (counterexample to the claim as stated): k = -1 is outside
[0, length) — here length = 2 — yet sample access returns the last
sample (Python negative-index wrap-around) instead of raising
IndexError. -/
theorem imgdataset_negative_index_no_error :
    getitem (subDataset ["a", "b"] [5, 6] (fun s => s) [0, 1]) (-1) = .ok ("b", 6) ∧
    ((-1 : ℤ) < 0 ∨ (2 : ℤ) ≤ -1) := by
  constructor
  · rfl
  · decide

/-- Character-by-character prefix match of a pattern against a text. -/
def leadMatch : List Char → List Char → Bool
  | [], _ => true
  | _ :: _, [] => false
  | a :: as, b :: bs => a == b && leadMatch as bs

/-- Substring occurrence of a pattern in a text. -/
def hasSub (p : List Char) : List Char → Bool
  | [] => p.isEmpty
  | b :: bs => leadMatch p (b :: bs) || hasSub p bs

/-- Python's `p in s` substring test on strings. -/
def strIn (p s : String) : Bool := hasSub p.toList s.toList

/-- The runtime-polymorphic `split` argument of `get_dataset`: either a
string ("full", "<n>-shot", or anything else) or a list of proportions. -/
inductive SplitArg where
  | str : String → SplitArg
  | flist : List ℚ → SplitArg

/-- The dispatch of `Office31.get_dataset` / `OfficeHome.get_dataset`
(datasets.py lines 191-206 and 400-415), after `_load_data` produced
`images` and `labels`: "full" returns the whole dataset; a string
containing "shot" parses the leading integer (`int(split.split('-')[0])`,
a ValueError when unparsable) and returns the two shot datasets; a list
argument returns the proportional datasets; any other string matches no
branch of the if/elif chain, so the function body ends and Python
silently returns None. -/
def get_dataset {γ : Type} (sh : ℕ → List ℕ → List ℕ) (tr : String → γ)
    (images : List String) (labels : List ℤ) (split : SplitArg) :
    Except String (Option (List (ImgDataset String ℤ γ))) :=
  match split with
  | .str s =>
    if s = "full" then .ok (some [⟨images, labels, tr⟩])
    else if strIn "shot" s then
      match ((s.splitOn "-").getD 0 "").toInt? with
      | none => .error "ValueError"
      | some n =>
        match get_n_shot sh labels n with
        | .error e => .error e
        | .ok p =>
          .ok (some [subDataset images labels tr p.1, subDataset images labels tr p.2])
    else .ok none
  | .flist sizes =>
    match get_n_split sh labels sizes with
    | .error e => .error e
    | .ok gs => .ok (some (gs.map (fun g => subDataset images labels tr g)))

/-- C10: for every string split argument that is neither "full" nor
contains the substring "shot" (and is not a list), get_dataset falls
through every branch of the dispatch and silently returns None: no
dataset is constructed and no error is raised. -/
theorem get_dataset_unknown_string {γ : Type} (sh : ℕ → List ℕ → List ℕ)
    (tr : String → γ) (images : List String) (labels : List ℤ) (s : String)
    (h1 : s ≠ "full") (h2 : strIn "shot" s = false) :
    get_dataset sh tr images labels (.str s) = .ok none := by
  unfold get_dataset
  dsimp only []
  rw [if_neg h1, if_neg (by simp [h2])]

/-- Witness for C10 at a concrete input: the split string "train". -/
theorem get_dataset_unknown_string_witness :
    ("train" ≠ "full") ∧ (strIn "shot" "train" = false) ∧
    get_dataset (fun _ l => l) (fun s => s) ["a"] [0] (.str "train") = .ok none :=
  ⟨by decide, by rfl,
    get_dataset_unknown_string (fun _ l => l) (fun s => s) ["a"] [0] "train"
      (by decide) (by rfl)⟩
